import Mathlib

/-!
Shallow embedding of the kvstor bounded key-value store (khva/kvstor).

Two source variants are embedded:

* the CAS/dump variant (src/include/kvstor.h): `storage_t` with `push`,
  `compare_exchange`, `find`, `first`, `last`, `map`, `erase`, `clear`,
  `dump` and a restoring constructor built on `build_from_dump`;
* the time-aware variant (src/unnamed/part_000): a `storage_t` carrying a
  `lifetime`, whose entries bear an `end_time` stamp, with the expiry sweep
  `clear_outdated`.

Embedding conventions: the C++ `std::list m_data` is a Lean `List`, newest
entry first.  The `std::unordered_map m_index`, which maps each key to a
stable iterator into `m_data`, is embedded as the list of its keys; the
iterator held for a key `k` designates the unique entry of `m_data` whose
`key` field is `k` (the code asserts `found->second->key == key` at every
use, and key uniqueness is part of the invariant this development proves).
`std::chrono` time points are `Nat`, and `clock_t::now()` becomes an
explicit `now` argument to each operation of the time-aware variant.  The
atomic mirror `m_size` equals `m_data.size()` whenever the lock is free
(it is reassigned from `m_data.size()` by `fix_size` and `erase`, and set
to 0 by `clear`), so `size()` is embedded as `data.length`.
-/

namespace kvstor

/-- `item_t` of the CAS/dump variant of kvstor.h: a `value` and a `key`. -/
structure item_t (κ ν : Type) where
  value : ν
  key : κ
deriving DecidableEq, Repr

/-- The state of `storage_t` (CAS/dump variant, src/include/kvstor.h):
`m_data`, the key set of `m_index`, and `m_max_size`. -/
structure storage_t (κ ν : Type) where
  data : List (item_t κ ν)
  index : List κ
  max_size : Nat
deriving DecidableEq, Repr

variable {κ ν : Type} [DecidableEq κ] [DecidableEq ν]

/-- The constructor `storage_t(max_size)`: an empty store. -/
def mkStor (m : Nat) : storage_t κ ν :=
  { data := [], index := [], max_size := m }

/-- `apply_new(key, value, found)`: emplace the new item at the front of the
sequence; if `found == m_index.end()` index the key at the front, otherwise
erase the previously indexed entry (the unique entry bearing the key) from
the sequence and repoint the index slot at the new front. -/
def apply_new (k : κ) (v : ν) (s : storage_t κ ν) : storage_t κ ν :=
  if k ∈ s.index then
    { s with data := ⟨v, k⟩ :: s.data.eraseP (fun it => it.key == k) }
  else
    { s with data := ⟨v, k⟩ :: s.data, index := k :: s.index }

/-- `fix_size()`: if the sequence exceeds `m_max_size`, pop the back entry
and erase its key from the index; then refresh `m_size`. -/
def fix_size (s : storage_t κ ν) : storage_t κ ν :=
  if s.max_size < s.data.length then
    { s with data := s.data.dropLast,
             index := match s.data.getLast? with
                      | some it => s.index.erase it.key
                      | none => s.index }
  else s

/-- `push(key, value)`: look the key up in the index, `apply_new`, then
`fix_size`. -/
def push (k : κ) (v : ν) (s : storage_t κ ν) : storage_t κ ν :=
  fix_size (apply_new k v s)

/-- `find(key)`: if the key is not indexed return the empty optional,
otherwise the value of the indexed entry (the unique sequence entry bearing
the key). -/
def find (k : κ) (s : storage_t κ ν) : Option ν :=
  if k ∈ s.index then (s.data.find? (fun it => it.key == k)).map item_t.value
  else none

/-- `last()`: empty optional when `m_size == 0`, otherwise the value at the
back of the sequence. -/
def last (s : storage_t κ ν) : Option ν :=
  if s.data.length = 0 then none else s.data.getLast?.map item_t.value

/-- The (key, value) pairs handed to the visitor by `map`, in visiting
order: the for loop runs over `m_data` front to back. -/
def visits : List (item_t κ ν) → List (κ × ν)
  | [] => []
  | it :: rest => (it.key, it.value) :: visits rest

/-- `map(func)` call order on a store. -/
def mapVisits (s : storage_t κ ν) : List (κ × ν) :=
  visits s.data

/-- `dump()`: the vector built by `emplace_back(key, value)` for each entry
visited by `map`. -/
def dump (s : storage_t κ ν) : List (κ × ν) :=
  mapVisits s

/-- `erase(key)`: if the key is indexed, erase the indexed entry from the
sequence and the key from the index; refresh `m_size`. -/
def erase (k : κ) (s : storage_t κ ν) : storage_t κ ν :=
  if k ∈ s.index then
    { s with data := s.data.eraseP (fun it => it.key == k),
             index := s.index.erase k }
  else s

/-- `clear()`: clear the index and the sequence, set `m_size` to 0. -/
def clear (s : storage_t κ ν) : storage_t κ ν :=
  { s with data := [], index := [] }

/-- `size()`: the value of `m_size`, which mirrors `m_data.size()`. -/
def size (s : storage_t κ ν) : Nat :=
  s.data.length

/-- `compare_with(found, expected)`: the comparison step of
`compare_exchange`.  `cur` is the value resolved by the index iterator
`found` (empty when `found == m_index.end()`).  Returns the boolean result
together with the final contents of the by-reference `expected` argument. -/
def compare_with (cur expected : Option ν) : Bool × Option ν :=
  match cur, expected with
  | none, none => (true, none)
  | none, some _ => (false, none)
  | some v, none => (false, some v)
  | some v, some e => if e = v then (true, some e) else (false, some v)

/-- `compare_exchange(key, desired, expected)`: run `compare_with` on the
looked-up iterator; on failure return false leaving the store untouched; on
success run `apply_new` on the same iterator then `fix_size` (exactly the
body of `push`) and return true.  Result: (returned bool, final `expected`,
final store). -/
def compare_exchange (k : κ) (d : ν) (expected : Option ν)
    (s : storage_t κ ν) : Bool × Option ν × storage_t κ ν :=
  let r := compare_with (find k s) expected
  if r.1 then (true, r.2, push k d s) else (false, r.2, s)

/-- `build_from_dump(dump_data)`: starting from
`rbegin() + offset` (oldest first, the oldest `offset` entries skipped),
`apply_new` + `fix_size` — i.e. `push` — each pair. -/
def build_from_dump (dd : List (κ × ν)) (s : storage_t κ ν) : storage_t κ ν :=
  let offset := if dd.length < s.max_size then 0 else dd.length - s.max_size
  (dd.reverse.drop offset).foldl (fun st p => push p.1 p.2 st) s

/-- The restoring constructor `storage_t(dump_data, max_size)`: delegate to
`storage_t(max_size)` then `build_from_dump`. -/
def restore (dd : List (κ × ν)) (m : Nat) : storage_t κ ν :=
  build_from_dump dd (mkStor m)

/-- Folding `push` over a list of pairs, oldest first (used to describe
insertion sequences). -/
def foldPush (kvs : List (κ × ν)) (s : storage_t κ ν) : storage_t κ ν :=
  kvs.foldl (fun st p => push p.1 p.2 st) s

/-- The public operations of the CAS/dump variant, each with the arguments
that affect the store (the `find` key and the `expected` of a failed CAS do
not affect it, but are carried for completeness). -/
inductive Op (κ ν : Type) where
  | push (k : κ) (v : ν)
  | cas (k : κ) (d : ν) (e : Option ν)
  | eraseKey (k : κ)
  | clearAll
  | findKey (k : κ)
  | firstVal
  | lastVal
  | mapAll
  | dumpAll

/-- State transition of one public operation of the CAS/dump variant.  The
const operations (`find`, `first`, `last`, `map`, `dump`, `size`, `empty`,
`max_size`) mutate nothing: their bodies only read under the lock. -/
def step : Op κ ν → storage_t κ ν → storage_t κ ν
  | Op.push k v, s => push k v s
  | Op.cas k d e, s => (compare_exchange k d e s).2.2
  | Op.eraseKey k, s => erase k s
  | Op.clearAll, s => clear s
  | Op.findKey _, s => s
  | Op.firstVal, s => s
  | Op.lastVal, s => s
  | Op.mapAll, s => s
  | Op.dumpAll, s => s

/-- Running a sequence of public operations. -/
def run (ops : List (Op κ ν)) (s : storage_t κ ν) : storage_t κ ν :=
  ops.foldl (fun st op => step op st) s

/-- `item_t` of the time-aware variant (src/unnamed/part_000): a `value`, a
`key` and the `end_time` stamp (`clock_t::now() + m_lifetime` at
insertion). -/
structure titem_t (κ ν : Type) where
  value : ν
  key : κ
  end_time : Nat
deriving DecidableEq, Repr

/-- The state of the time-aware `storage_t`: `m_data`, the key set of
`m_index`, `m_max_size` and `m_lifetime`. -/
structure tstorage_t (κ ν : Type) where
  data : List (titem_t κ ν)
  index : List κ
  max_size : Nat
  lifetime : Nat
deriving DecidableEq, Repr

/-- The constructor `storage_t(max_size, lifetime)` of the time-aware
variant: an empty store. -/
def mkTStor (m lt : Nat) : tstorage_t κ ν :=
  { data := [], index := [], max_size := m, lifetime := lt }

/-- The while loop of `clear_outdated()`, acting on the reversed sequence
(its head is `m_data.back()`): pop entries whose `end_time` is not after
`now`, erasing each popped key from the index, and stop at the first entry
with `end_time > now`. -/
def sweepRev (now : Nat) :
    List (titem_t κ ν) → List κ → List (titem_t κ ν) × List κ
  | [], ix => ([], ix)
  | it :: rest, ix =>
    if it.end_time ≤ now then sweepRev now rest (ix.erase it.key)
    else (it :: rest, ix)

/-- `clear_outdated()` at instant `now`. -/
def clear_outdated (now : Nat) (s : tstorage_t κ ν) : tstorage_t κ ν :=
  let p := sweepRev now s.data.reverse s.index
  { s with data := p.1.reverse, index := p.2 }

/-- The emplace-and-index block of the time-aware `push` (the statements
between `clear_outdated()` and the size check): emplace the new entry in
front with `end_time = now + m_lifetime`; if the key was not indexed, index
it, otherwise erase the previously indexed entry from the sequence and
repoint the index slot at the new front. -/
def tapply_new (now : Nat) (k : κ) (v : ν) (s1 : tstorage_t κ ν) :
    tstorage_t κ ν :=
  if k ∈ s1.index then
    { s1 with data :=
        ⟨v, k, now + s1.lifetime⟩ :: s1.data.eraseP (fun it => it.key == k) }
  else
    { s1 with data := ⟨v, k, now + s1.lifetime⟩ :: s1.data,
              index := k :: s1.index }

/-- The eviction block at the end of the time-aware `push`: if the sequence
exceeds `m_max_size`, pop the back entry and erase its key from the
index. -/
def tfix_size (s2 : tstorage_t κ ν) : tstorage_t κ ν :=
  if s2.max_size < s2.data.length then
    { s2 with data := s2.data.dropLast,
              index := match s2.data.getLast? with
                       | some it => s2.index.erase it.key
                       | none => s2.index }
  else s2

/-- `push(key, value)` of the time-aware variant at instant `now`:
`clear_outdated`, then the emplace-and-index block, then the eviction
block. -/
def tpush (now : Nat) (k : κ) (v : ν) (s : tstorage_t κ ν) : tstorage_t κ ν :=
  tfix_size (tapply_new now k v (clear_outdated now s))

/-- `find(key)` of the time-aware variant at instant `now`: a miss when the
key is not indexed; otherwise the indexed entry is a miss when
`end_time <= now`, and its value otherwise.  No sweep happens. -/
def tfind (now : Nat) (k : κ) (s : tstorage_t κ ν) : Option ν :=
  if k ∈ s.index then
    match s.data.find? (fun it => it.key == k) with
    | none => none
    | some it => if it.end_time ≤ now then none else some it.value
  else none

/-- `first()` of the time-aware variant: empty optional when `m_data` is
empty, otherwise the front value; no sweep and no expiry test. -/
def tfirst (s : tstorage_t κ ν) : Option ν :=
  if s.data.isEmpty then none else s.data.head?.map titem_t.value

/-- `last()` of the time-aware variant at instant `now`: `clear_outdated`
first; then empty optional when the sequence is empty, or when the back
entry has `end_time < now`; otherwise the back value. -/
def tlast (now : Nat) (s : tstorage_t κ ν) : Option ν :=
  let s1 := clear_outdated now s
  if s1.data.isEmpty then none
  else
    match s1.data.getLast? with
    | none => none
    | some it => if it.end_time < now then none else some it.value

/-- The entries handed to the visitor by the time-aware `map` at instant
`now`, in visiting order: the loop runs front to back and breaks at the
first entry with `end_time < now`. -/
def tvisits (now : Nat) : List (titem_t κ ν) → List (titem_t κ ν)
  | [] => []
  | it :: rest =>
    if it.end_time < now then [] else it :: tvisits now rest

/-- Time-aware `map(func)` call order on a store. -/
def tmapVisits (now : Nat) (s : tstorage_t κ ν) : List (titem_t κ ν) :=
  tvisits now s.data

/-- `erase(key)` of the time-aware variant: erase the indexed entry and its
key if present, then `clear_outdated`. -/
def terase (now : Nat) (k : κ) (s : tstorage_t κ ν) : tstorage_t κ ν :=
  let s1 :=
    if k ∈ s.index then
      { s with data := s.data.eraseP (fun it => it.key == k),
               index := s.index.erase k }
    else s
  clear_outdated now s1

/-- `clear()` of the time-aware variant. -/
def tclear (s : tstorage_t κ ν) : tstorage_t κ ν :=
  { s with data := [], index := [] }

/-- The public operations of the time-aware variant; each carries the
instant `clock_t::now()` observed during the call where the code reads the
clock. -/
inductive TOp (κ ν : Type) where
  | push (now : Nat) (k : κ) (v : ν)
  | eraseKey (now : Nat) (k : κ)
  | clearAll
  | sizeOf (now : Nat)
  | emptyOf (now : Nat)
  | findKey (now : Nat) (k : κ)
  | firstVal
  | lastVal (now : Nat)
  | mapAll (now : Nat)

/-- State transition of one public operation of the time-aware variant.
`size`, `empty` and `last` run `clear_outdated` (they cast constness away
to sweep); `find`, `first` and `map` read without sweeping. -/
def tstep : TOp κ ν → tstorage_t κ ν → tstorage_t κ ν
  | TOp.push now k v, s => tpush now k v s
  | TOp.eraseKey now k, s => terase now k s
  | TOp.clearAll, s => tclear s
  | TOp.sizeOf now, s => clear_outdated now s
  | TOp.emptyOf now, s => clear_outdated now s
  | TOp.findKey _ _, s => s
  | TOp.firstVal, s => s
  | TOp.lastVal now, s => clear_outdated now s
  | TOp.mapAll _, s => s

/-- Running a sequence of time-aware public operations. -/
def trun (ops : List (TOp κ ν)) (s : tstorage_t κ ν) : tstorage_t κ ν :=
  ops.foldl (fun st op => tstep op st) s

/-- The keys of a CAS/dump-variant sequence, front to back. -/
def keysOf (l : List (item_t κ ν)) : List κ :=
  l.map item_t.key

/-- The keys of a time-aware sequence, front to back. -/
def tkeysOf (l : List (titem_t κ ν)) : List κ :=
  l.map titem_t.key

/-- The structural invariant of the CAS/dump variant: the sequence respects
`m_max_size`, the index key set is a permutation of the sequence keys
(hence equal in size), and no two sequence entries share a key. -/
def Inv (s : storage_t κ ν) : Prop :=
  s.data.length ≤ s.max_size ∧ List.Perm s.index (keysOf s.data) ∧
    (keysOf s.data).Nodup

/-- The structural invariant of the time-aware variant. -/
def TInv (s : tstorage_t κ ν) : Prop :=
  s.data.length ≤ s.max_size ∧ List.Perm s.index (tkeysOf s.data) ∧
    (tkeysOf s.data).Nodup

instance (s : storage_t κ ν) : Decidable (Inv s) :=
  inferInstanceAs (Decidable (_ ∧ _ ∧ _))

instance (s : tstorage_t κ ν) : Decidable (TInv s) :=
  inferInstanceAs (Decidable (_ ∧ _ ∧ _))

section GenericKeyLemmas

variable {ι : Type} (f : ι → κ)

theorem map_eraseP_key (k : κ) (l : List ι) :
    (l.eraseP (fun it => f it == k)).map f = (l.map f).erase k := by
  induction l with
  | nil => simp
  | cons it rest ih =>
    by_cases h : f it = k
    · simp [List.eraseP_cons, List.erase_cons, h]
    · simp [List.eraseP_cons, List.erase_cons, h, ih]

theorem front_found_perm {l : List ι} {k : κ} {ix : List κ}
    (hP : List.Perm ix (l.map f)) (hN : (l.map f).Nodup) (hk : k ∈ ix)
    (a : ι) (ha : f a = k) :
    List.Perm ix ((a :: l.eraseP (fun it => f it == k)).map f) ∧
      ((a :: l.eraseP (fun it => f it == k)).map f).Nodup ∧
      (a :: l.eraseP (fun it => f it == k)).length = l.length := by
  have hkl : k ∈ l.map f := hP.mem_iff.1 hk
  have hmap : (l.eraseP (fun it => f it == k)).map f = (l.map f).erase k :=
    map_eraseP_key f k l
  have hperm2 : List.Perm (l.map f) (k :: (l.map f).erase k) :=
    List.perm_cons_erase hkl
  have hlenP : (l.eraseP (fun it => f it == k)).length + 1 = l.length := by
    obtain ⟨b, hbl, hbk⟩ := List.mem_map.1 hkl
    have : (l.eraseP (fun it => f it == k)).length = l.length - 1 :=
      List.length_eraseP_of_mem hbl (by simp [hbk])
    have hpos : 0 < l.length := List.length_pos.2 (by rintro rfl; simp at hbl)
    omega
  refine ⟨?_, ?_, ?_⟩
  · have heq : (a :: l.eraseP (fun it => f it == k)).map f =
        k :: (l.map f).erase k := by
      simp [hmap, ha]
    rw [heq]
    exact hP.trans hperm2
  · simp only [List.map_cons, ha, hmap]
    exact List.Nodup.cons (hN.not_mem_erase) (hN.erase k)
  · simpa using hlenP

theorem evict_back_perm {l : List ι} {ix : List κ} (hne : l ≠ [])
    (hP : List.Perm ix (l.map f)) (hN : (l.map f).Nodup) :
    List.Perm (ix.erase (f (l.getLast hne))) (l.dropLast.map f) ∧
      (l.dropLast.map f).Nodup := by
  have hdec : l.dropLast ++ [l.getLast hne] = l := List.dropLast_append_getLast hne
  have hkeys : l.map f = l.dropLast.map f ++ [f (l.getLast hne)] := by
    conv_lhs => rw [← hdec]
    simp
  have hN2 : (l.dropLast.map f ++ [f (l.getLast hne)]).Nodup := hkeys ▸ hN
  have hnm : f (l.getLast hne) ∉ l.dropLast.map f := by
    have := List.nodup_append.1 hN2
    intro hmem
    exact (this.2.2 hmem) (List.mem_singleton_self _)
  constructor
  · have h1 : List.Perm (ix.erase (f (l.getLast hne)))
        ((l.map f).erase (f (l.getLast hne))) := hP.erase _
    have h2 : (l.map f).erase (f (l.getLast hne)) = l.dropLast.map f := by
      rw [hkeys, List.erase_append_right _ hnm, List.erase_cons_head, List.append_nil]
    rwa [h2] at h1
  · exact (List.nodup_append.1 hN2).1

end GenericKeyLemmas

theorem apply_new_mem {s : storage_t κ ν} {k : κ} (v : ν) (h : k ∈ s.index) :
    apply_new k v s =
      { s with data := ⟨v, k⟩ :: s.data.eraseP (fun it => it.key == k) } := by
  simp [apply_new, h]

theorem apply_new_not_mem {s : storage_t κ ν} {k : κ} (v : ν) (h : k ∉ s.index) :
    apply_new k v s =
      { s with data := ⟨v, k⟩ :: s.data, index := k :: s.index } := by
  simp [apply_new, h]

theorem fix_size_of_le {s : storage_t κ ν} (h : s.data.length ≤ s.max_size) :
    fix_size s = s := by
  simp [fix_size, Nat.not_lt.2 h]

theorem inv_fix_size {s : storage_t κ ν} (hLen : s.data.length ≤ s.max_size + 1)
    (hP : List.Perm s.index (keysOf s.data)) (hN : (keysOf s.data).Nodup) :
    Inv (fix_size s) := by
  by_cases h : s.data.length ≤ s.max_size
  · rw [fix_size_of_le h]; exact ⟨h, hP, hN⟩
  · have hlt : s.max_size < s.data.length := Nat.not_le.1 h
    have hne : s.data ≠ [] := by
      intro h0
      rw [h0] at hlt
      simp at hlt
    have hlast : s.data.getLast? = some (s.data.getLast hne) :=
      List.getLast?_eq_getLast _ hne
    obtain ⟨hperm, hnodup⟩ := evict_back_perm item_t.key hne hP hN
    have hres : fix_size s =
        { s with data := s.data.dropLast,
                 index := s.index.erase (s.data.getLast hne).key } := by
      rw [fix_size, if_pos hlt, hlast]
    rw [hres]
    refine ⟨?_, hperm, hnodup⟩
    show s.data.dropLast.length ≤ s.max_size
    have : s.data.dropLast.length = s.data.length - 1 := List.length_dropLast _
    omega

theorem inv_push {s : storage_t κ ν} (hI : Inv s) (k : κ) (v : ν) :
    Inv (push k v s) := by
  obtain ⟨hLen, hP, hN⟩ := hI
  rw [push]
  by_cases hk : k ∈ s.index
  · rw [apply_new_mem v hk]
    obtain ⟨hP2, hN2, hLen2⟩ := front_found_perm item_t.key hP hN hk ⟨v, k⟩ rfl
    exact inv_fix_size (by simp only [hLen2]; omega) hP2 hN2
  · rw [apply_new_not_mem v hk]
    have hkk : k ∉ keysOf s.data := fun hmem => hk (hP.mem_iff.2 hmem)
    refine inv_fix_size (by simp; omega) (List.Perm.cons k hP) ?_
    exact List.Nodup.cons hkk hN

theorem inv_erase {s : storage_t κ ν} (hI : Inv s) (k : κ) :
    Inv (erase k s) := by
  obtain ⟨hLen, hP, hN⟩ := hI
  rw [erase]
  by_cases hk : k ∈ s.index
  · rw [if_pos hk]
    have hmap : keysOf (s.data.eraseP (fun it => it.key == k)) =
        (keysOf s.data).erase k := map_eraseP_key item_t.key k s.data
    refine ⟨?_, ?_, ?_⟩
    · show (s.data.eraseP (fun it => it.key == k)).length ≤ s.max_size
      exact le_trans (List.length_eraseP_le _) hLen
    · show List.Perm (s.index.erase k) (keysOf (s.data.eraseP _))
      rw [hmap]
      exact hP.erase k
    · show (keysOf (s.data.eraseP _)).Nodup
      rw [hmap]
      exact hN.erase k
  · rw [if_neg hk]
    exact ⟨hLen, hP, hN⟩

theorem inv_clear (s : storage_t κ ν) : Inv (clear s) := by
  refine ⟨?_, ?_, ?_⟩ <;> simp [clear, keysOf]

theorem inv_mkStor (m : Nat) : Inv (mkStor m : storage_t κ ν) := by
  refine ⟨?_, ?_, ?_⟩ <;> simp [mkStor, keysOf]

theorem cas_state (k : κ) (d : ν) (e : Option ν) (s : storage_t κ ν) :
    (compare_exchange k d e s).2.2 =
      if (compare_with (find k s) e).1 = true then push k d s else s := by
  rw [compare_exchange]
  by_cases h : (compare_with (find k s) e).1 <;> simp [h]

theorem inv_cas {s : storage_t κ ν} (hI : Inv s) (k : κ) (d : ν)
    (e : Option ν) : Inv (compare_exchange k d e s).2.2 := by
  rw [cas_state]
  by_cases h : (compare_with (find k s) e).1 = true
  · rw [if_pos h]; exact inv_push hI k d
  · rw [if_neg h]; exact hI

theorem inv_step {s : storage_t κ ν} (hI : Inv s) (op : Op κ ν) :
    Inv (step op s) := by
  cases op with
  | push k v => exact inv_push hI k v
  | cas k d e => exact inv_cas hI k d e
  | eraseKey k => exact inv_erase hI k
  | clearAll => exact inv_clear s
  | findKey k => exact hI
  | firstVal => exact hI
  | lastVal => exact hI
  | mapAll => exact hI
  | dumpAll => exact hI

theorem inv_run {s : storage_t κ ν} (hI : Inv s) (ops : List (Op κ ν)) :
    Inv (run ops s) := by
  induction ops generalizing s with
  | nil => exact hI
  | cons op rest ih =>
    rw [run, List.foldl_cons]
    exact ih (inv_step hI op)

theorem inv_foldPush {s : storage_t κ ν} (hI : Inv s) (kvs : List (κ × ν)) :
    Inv (foldPush kvs s) := by
  induction kvs generalizing s with
  | nil => exact hI
  | cons p rest ih =>
    rw [foldPush, List.foldl_cons]
    exact ih (inv_push hI p.1 p.2)

theorem build_from_dump_eq (dd : List (κ × ν)) (s : storage_t κ ν) :
    build_from_dump dd s =
      foldPush (dd.reverse.drop
        (if dd.length < s.max_size then 0 else dd.length - s.max_size)) s := rfl

theorem inv_restore (dd : List (κ × ν)) (m : Nat) :
    Inv (restore dd m : storage_t κ ν) := by
  rw [restore, build_from_dump_eq]
  exact inv_foldPush (inv_mkStor m) _

theorem push_fresh_no_evict {s : storage_t κ ν} {k : κ} (v : ν)
    (hk : k ∉ s.index) (hroom : s.data.length < s.max_size) :
    push k v s =
      { s with data := ⟨v, k⟩ :: s.data, index := k :: s.index } := by
  rw [push, apply_new_not_mem v hk]
  exact fix_size_of_le (by simpa using hroom)

theorem push_fresh_evict {s : storage_t κ ν} {k : κ} (v : ν) (hI : Inv s)
    (hk : k ∉ s.index) (hfull : s.data.length = s.max_size)
    (hpos : 0 < s.max_size) :
    (push k v s).data = ⟨v, k⟩ :: s.data.dropLast ∧
      ∀ hne : s.data ≠ [],
        (push k v s).index = k :: s.index.erase (s.data.getLast hne).key ∧
        List.Perm (push k v s).index (k :: keysOf s.data.dropLast) := by
  obtain ⟨hLen, hP, hN⟩ := hI
  have hne : s.data ≠ [] := by
    intro h0
    rw [h0] at hfull
    simp at hfull
    omega
  have hq : (s.data.getLast hne).key ∈ keysOf s.data :=
    List.mem_map_of_mem item_t.key (List.getLast_mem hne)
  have hkq : ¬((k : κ) == (s.data.getLast hne).key) := by
    simp only [beq_iff_eq]
    intro h0
    exact hk (hP.mem_iff.2 (h0 ▸ hq))
  have hlast2 : (⟨v, k⟩ :: s.data : List (item_t κ ν)).getLast? =
      some (s.data.getLast hne) := by
    rw [List.getLast?_cons, List.getLast?_eq_getLast _ hne]
    rfl
  have hgt : ({ s with data := ⟨v, k⟩ :: s.data, index := k :: s.index } :
      storage_t κ ν).max_size <
      ({ s with data := ⟨v, k⟩ :: s.data, index := k :: s.index } :
      storage_t κ ν).data.length := by
    simp
    omega
  have hres : push k v s =
      { s with data := ⟨v, k⟩ :: s.data.dropLast,
               index := k :: s.index.erase (s.data.getLast hne).key } := by
    rw [push, apply_new_not_mem v hk, fix_size, if_pos hgt]
    simp only [hlast2]
    rw [List.dropLast_cons_of_ne_nil hne, List.erase_cons_tail hkq]
  obtain ⟨hperm, _⟩ := evict_back_perm item_t.key hne hP hN
  refine ⟨by rw [hres], fun hne2 => ⟨by rw [hres], ?_⟩⟩
  rw [hres]
  show List.Perm (k :: s.index.erase (s.data.getLast hne).key)
    (k :: keysOf s.data.dropLast)
  exact List.Perm.cons k hperm

theorem sweepRev_spec (now : Nat) (l : List (titem_t κ ν)) :
    ∀ ix : List κ, List.Perm ix (tkeysOf l) → (tkeysOf l).Nodup →
      List.Perm (sweepRev now l ix).2 (tkeysOf (sweepRev now l ix).1) ∧
      (tkeysOf (sweepRev now l ix).1).Nodup ∧
      (sweepRev now l ix).1.length ≤ l.length ∧
      (∀ x ∈ (sweepRev now l ix).1, x ∈ l) ∧
      (∀ it ∈ (sweepRev now l ix).1.head?, now < it.end_time) := by
  induction l with
  | nil =>
    intro ix hP hN
    refine ⟨?_, ?_, ?_, ?_, ?_⟩ <;> simp_all [sweepRev, tkeysOf]
  | cons it rest ih =>
    intro ix hP hN
    by_cases hexp : it.end_time ≤ now
    · have hstep : sweepRev now (it :: rest) ix =
          sweepRev now rest (ix.erase it.key) := by
        rw [sweepRev, if_pos hexp]
      have hkeys : tkeysOf (it :: rest) = it.key :: tkeysOf rest := rfl
      rw [hkeys] at hP hN
      have hP2 : List.Perm (ix.erase it.key) (tkeysOf rest) := by
        have h1 := hP.erase it.key
        rwa [List.erase_cons_head] at h1
      have hN2 : (tkeysOf rest).Nodup := (List.nodup_cons.1 hN).2
      obtain ⟨a1, a2, a3, a4, a5⟩ := ih (ix.erase it.key) hP2 hN2
      rw [hstep]
      exact ⟨a1, a2, Nat.le_succ_of_le a3, fun x hx => List.mem_cons_of_mem it (a4 x hx), a5⟩
    · have hstep : sweepRev now (it :: rest) ix = (it :: rest, ix) := by
        rw [sweepRev, if_neg hexp]
      rw [hstep]
      refine ⟨hP, hN, Nat.le_refl _, fun x hx => hx, ?_⟩
      intro a ha
      simp only [List.head?_cons, Option.mem_def, Option.some.injEq] at ha
      subst ha
      exact Nat.lt_of_not_le hexp

theorem tinv_clear_outdated {s : tstorage_t κ ν} (hI : TInv s) (now : Nat) :
    TInv (clear_outdated now s) := by
  obtain ⟨hLen, hP, hN⟩ := hI
  have hPrev : List.Perm s.index (tkeysOf s.data.reverse) := by
    refine hP.trans ?_
    show List.Perm (tkeysOf s.data) (s.data.reverse.map titem_t.key)
    rw [List.map_reverse]
    exact (List.reverse_perm _).symm
  have hNrev : (tkeysOf s.data.reverse).Nodup := by
    show (s.data.reverse.map titem_t.key).Nodup
    rw [List.map_reverse]
    exact List.nodup_reverse.2 hN
  obtain ⟨a1, a2, a3, _, _⟩ := sweepRev_spec now s.data.reverse s.index hPrev hNrev
  refine ⟨?_, ?_, ?_⟩
  · show (sweepRev now s.data.reverse s.index).1.reverse.length ≤ s.max_size
    rw [List.length_reverse]
    exact le_trans a3 (by rw [List.length_reverse]; exact hLen)
  · show List.Perm (sweepRev now s.data.reverse s.index).2
      (tkeysOf (sweepRev now s.data.reverse s.index).1.reverse)
    refine a1.trans ?_
    show List.Perm (tkeysOf (sweepRev now s.data.reverse s.index).1)
      ((sweepRev now s.data.reverse s.index).1.reverse.map titem_t.key)
    rw [List.map_reverse]
    exact (List.reverse_perm _).symm
  · show (tkeysOf (sweepRev now s.data.reverse s.index).1.reverse).Nodup
    show ((sweepRev now s.data.reverse s.index).1.reverse.map titem_t.key).Nodup
    rw [List.map_reverse]
    exact List.nodup_reverse.2 a2

theorem clear_outdated_mem {s : tstorage_t κ ν} {now : Nat}
    {x : titem_t κ ν} (hI : TInv s) (hx : x ∈ (clear_outdated now s).data) :
    x ∈ s.data := by
  obtain ⟨_, hP, hN⟩ := hI
  have hPrev : List.Perm s.index (tkeysOf s.data.reverse) := by
    refine hP.trans ?_
    show List.Perm (tkeysOf s.data) (s.data.reverse.map titem_t.key)
    rw [List.map_reverse]
    exact (List.reverse_perm _).symm
  have hNrev : (tkeysOf s.data.reverse).Nodup := by
    show (s.data.reverse.map titem_t.key).Nodup
    rw [List.map_reverse]
    exact List.nodup_reverse.2 hN
  obtain ⟨_, _, _, a4, _⟩ := sweepRev_spec now s.data.reverse s.index hPrev hNrev
  have hx2 : x ∈ (sweepRev now s.data.reverse s.index).1 := by
    have : (clear_outdated now s).data =
        (sweepRev now s.data.reverse s.index).1.reverse := rfl
    rw [this] at hx
    exact List.mem_reverse.1 hx
  exact List.mem_reverse.1 (a4 x hx2)

theorem clear_outdated_back_fresh {s : tstorage_t κ ν} {now : Nat}
    {it : titem_t κ ν} (hI : TInv s)
    (hit : (clear_outdated now s).data.getLast? = some it) :
    now < it.end_time := by
  obtain ⟨_, hP, hN⟩ := hI
  have hPrev : List.Perm s.index (tkeysOf s.data.reverse) := by
    refine hP.trans ?_
    show List.Perm (tkeysOf s.data) (s.data.reverse.map titem_t.key)
    rw [List.map_reverse]
    exact (List.reverse_perm _).symm
  have hNrev : (tkeysOf s.data.reverse).Nodup := by
    show (s.data.reverse.map titem_t.key).Nodup
    rw [List.map_reverse]
    exact List.nodup_reverse.2 hN
  obtain ⟨_, _, _, _, a5⟩ := sweepRev_spec now s.data.reverse s.index hPrev hNrev
  have hval : (clear_outdated now s).data.getLast? =
      (sweepRev now s.data.reverse s.index).1.head? := by
    show (sweepRev now s.data.reverse s.index).1.reverse.getLast? = _
    exact List.getLast?_reverse _
  rw [hval] at hit
  exact a5 it hit

theorem tinv_tfix_size {s2 : tstorage_t κ ν}
    (hLen : s2.data.length ≤ s2.max_size + 1)
    (hP : List.Perm s2.index (tkeysOf s2.data))
    (hN : (tkeysOf s2.data).Nodup) : TInv (tfix_size s2) := by
  by_cases h : s2.data.length ≤ s2.max_size
  · rw [tfix_size, if_neg (Nat.not_lt.2 h)]
    exact ⟨h, hP, hN⟩
  · have hlt : s2.max_size < s2.data.length := Nat.not_le.1 h
    have hne : s2.data ≠ [] := by
      intro h0
      rw [h0] at hlt
      simp at hlt
    have hlast : s2.data.getLast? = some (s2.data.getLast hne) :=
      List.getLast?_eq_getLast _ hne
    obtain ⟨hperm, hnodup⟩ := evict_back_perm titem_t.key hne hP hN
    have hres : tfix_size s2 =
        { s2 with data := s2.data.dropLast,
                  index := s2.index.erase (s2.data.getLast hne).key } := by
      rw [tfix_size, if_pos hlt, hlast]
    rw [hres]
    refine ⟨?_, hperm, hnodup⟩
    show s2.data.dropLast.length ≤ s2.max_size
    have : s2.data.dropLast.length = s2.data.length - 1 := List.length_dropLast _
    omega

theorem tapply_new_mem {s1 : tstorage_t κ ν} {k : κ} (now : Nat) (v : ν)
    (h : k ∈ s1.index) :
    tapply_new now k v s1 =
      { s1 with data := ⟨v, k, now + s1.lifetime⟩ ::
          s1.data.eraseP (fun it => it.key == k) } := by
  simp [tapply_new, h]

theorem tapply_new_not_mem {s1 : tstorage_t κ ν} {k : κ} (now : Nat) (v : ν)
    (h : k ∉ s1.index) :
    tapply_new now k v s1 =
      { s1 with data := ⟨v, k, now + s1.lifetime⟩ :: s1.data,
                index := k :: s1.index } := by
  simp [tapply_new, h]

theorem tinv_tpush {s : tstorage_t κ ν} (hI : TInv s) (now : Nat) (k : κ)
    (v : ν) : TInv (tpush now k v s) := by
  obtain ⟨hLen, hP, hN⟩ := tinv_clear_outdated hI now
  rw [tpush]
  by_cases hk : k ∈ (clear_outdated now s).index
  · rw [tapply_new_mem now v hk]
    obtain ⟨hP2, hN2, hLen2⟩ := front_found_perm titem_t.key hP hN hk
      ⟨v, k, now + (clear_outdated now s).lifetime⟩ rfl
    exact tinv_tfix_size (by simp only [hLen2]; omega) hP2 hN2
  · rw [tapply_new_not_mem now v hk]
    have hkk : k ∉ tkeysOf (clear_outdated now s).data :=
      fun hmem => hk (hP.mem_iff.2 hmem)
    refine tinv_tfix_size (by simp; omega) (List.Perm.cons k hP) ?_
    exact List.Nodup.cons hkk hN

theorem tinv_terase {s : tstorage_t κ ν} (hI : TInv s) (now : Nat) (k : κ) :
    TInv (terase now k s) := by
  obtain ⟨hLen, hP, hN⟩ := hI
  rw [terase]
  by_cases hk : k ∈ s.index
  · rw [if_pos hk]
    have hmap : tkeysOf (s.data.eraseP (fun it => it.key == k)) =
        (tkeysOf s.data).erase k := map_eraseP_key titem_t.key k s.data
    refine tinv_clear_outdated ⟨?_, ?_, ?_⟩ now
    · show (s.data.eraseP (fun it => it.key == k)).length ≤ s.max_size
      exact le_trans (List.length_eraseP_le _) hLen
    · show List.Perm (s.index.erase k) (tkeysOf (s.data.eraseP _))
      rw [hmap]
      exact hP.erase k
    · show (tkeysOf (s.data.eraseP _)).Nodup
      rw [hmap]
      exact hN.erase k
  · rw [if_neg hk]
    exact tinv_clear_outdated ⟨hLen, hP, hN⟩ now

theorem tinv_tclear (s : tstorage_t κ ν) : TInv (tclear s) := by
  refine ⟨?_, ?_, ?_⟩ <;> simp [tclear, tkeysOf]

theorem tinv_mkTStor (m lt : Nat) : TInv (mkTStor m lt : tstorage_t κ ν) := by
  refine ⟨?_, ?_, ?_⟩ <;> simp [mkTStor, tkeysOf]

theorem tinv_tstep {s : tstorage_t κ ν} (hI : TInv s) (op : TOp κ ν) :
    TInv (tstep op s) := by
  cases op with
  | push now k v => exact tinv_tpush hI now k v
  | eraseKey now k => exact tinv_terase hI now k
  | clearAll => exact tinv_tclear s
  | sizeOf now => exact tinv_clear_outdated hI now
  | emptyOf now => exact tinv_clear_outdated hI now
  | findKey now k => exact hI
  | firstVal => exact hI
  | lastVal now => exact tinv_clear_outdated hI now
  | mapAll now => exact hI

theorem tinv_trun {s : tstorage_t κ ν} (hI : TInv s) (ops : List (TOp κ ν)) :
    TInv (trun ops s) := by
  induction ops generalizing s with
  | nil => exact hI
  | cons op rest ih =>
    rw [trun, List.foldl_cons]
    exact ih (tinv_tstep hI op)

theorem max_size_push (k : κ) (v : ν) (s : storage_t κ ν) :
    (push k v s).max_size = s.max_size := by
  rw [push]
  have h1 : (apply_new k v s).max_size = s.max_size := by
    rw [apply_new]; split <;> rfl
  rw [fix_size]
  split <;> simp [h1]

theorem max_size_step (op : Op κ ν) (s : storage_t κ ν) :
    (step op s).max_size = s.max_size := by
  cases op with
  | push k v => exact max_size_push k v s
  | cas k d e =>
    show (compare_exchange k d e s).2.2.max_size = s.max_size
    rw [cas_state]
    split
    · exact max_size_push k d s
    · rfl
  | eraseKey k =>
    show (erase k s).max_size = s.max_size
    by_cases hk : k ∈ s.index <;> simp [erase, hk]
  | clearAll => rfl
  | findKey k => rfl
  | firstVal => rfl
  | lastVal => rfl
  | mapAll => rfl
  | dumpAll => rfl

theorem max_size_run (ops : List (Op κ ν)) (s : storage_t κ ν) :
    (run ops s).max_size = s.max_size := by
  induction ops generalizing s with
  | nil => rfl
  | cons op rest ih =>
    rw [run, List.foldl_cons]
    exact (ih (step op s)).trans (max_size_step op s)

theorem max_size_foldPush (kvs : List (κ × ν)) (s : storage_t κ ν) :
    (foldPush kvs s).max_size = s.max_size := by
  induction kvs generalizing s with
  | nil => rfl
  | cons p rest ih =>
    rw [foldPush, List.foldl_cons]
    exact (ih (push p.1 p.2 s)).trans (max_size_push p.1 p.2 s)

theorem max_size_restore (dd : List (κ × ν)) (m : Nat) :
    (restore dd m : storage_t κ ν).max_size = m := by
  rw [restore, build_from_dump_eq]
  exact max_size_foldPush _ _

theorem tmax_size_tpush (now : Nat) (k : κ) (v : ν) (s : tstorage_t κ ν) :
    (tpush now k v s).max_size = s.max_size := by
  rw [tpush]
  have h0 : (clear_outdated now s).max_size = s.max_size := rfl
  have h1 : (tapply_new now k v (clear_outdated now s)).max_size = s.max_size := by
    rw [tapply_new]; split <;> rfl
  rw [tfix_size]
  split <;> simp [h1]

theorem tmax_size_tstep (op : TOp κ ν) (s : tstorage_t κ ν) :
    (tstep op s).max_size = s.max_size := by
  cases op with
  | push now k v => exact tmax_size_tpush now k v s
  | eraseKey now k =>
    show (terase now k s).max_size = s.max_size
    by_cases hk : k ∈ s.index <;> simp [terase, hk, clear_outdated]
  | clearAll => rfl
  | sizeOf now => rfl
  | emptyOf now => rfl
  | findKey now k => rfl
  | firstVal => rfl
  | lastVal now => rfl
  | mapAll now => rfl

theorem tmax_size_trun (ops : List (TOp κ ν)) (s : tstorage_t κ ν) :
    (trun ops s).max_size = s.max_size := by
  induction ops generalizing s with
  | nil => rfl
  | cons op rest ih =>
    rw [trun, List.foldl_cons]
    exact (ih (tstep op s)).trans (tmax_size_tstep op s)

theorem inv_observables {s : storage_t κ ν} (hI : Inv s) (hm : s.max_size = m) :
    s.data.length ≤ m ∧ s.index.length = s.data.length ∧
      (keysOf s.data).Nodup := by
  obtain ⟨h1, h2, h3⟩ := hI
  refine ⟨hm ▸ h1, ?_, h3⟩
  rw [h2.length_eq]
  exact List.length_map _ _

theorem tinv_observables {s : tstorage_t κ ν} (hI : TInv s)
    (hm : s.max_size = m) :
    s.data.length ≤ m ∧ s.index.length = s.data.length ∧
      (tkeysOf s.data).Nodup := by
  obtain ⟨h1, h2, h3⟩ := hI
  refine ⟨hm ▸ h1, ?_, h3⟩
  rw [h2.length_eq]
  exact List.length_map _ _

/-- C1: for both variants and every sequence of public operations (push,
compare_exchange, erase, clear, find, first, last, map, dump,
restore-construction), after each operation the recency sequence holds at
most `max_size` entries, the index and the sequence have equal size, and no
two sequence entries share a key; with `max_size = 0` the reported `size()`
is always 0 however many pushes are performed. -/
theorem C1_structural_invariants {κ ν : Type} [DecidableEq κ]
    [DecidableEq ν] :
    (∀ (ops : List (Op κ ν)) (m : Nat),
      (run ops (mkStor m)).data.length ≤ m ∧
      (run ops (mkStor m)).index.length = (run ops (mkStor m)).data.length ∧
      (keysOf (run ops (mkStor m)).data).Nodup) ∧
    (∀ (dd : List (κ × ν)) (m : Nat) (ops : List (Op κ ν)),
      (run ops (restore dd m)).data.length ≤ m ∧
      (run ops (restore dd m)).index.length =
        (run ops (restore dd m)).data.length ∧
      (keysOf (run ops (restore dd m)).data).Nodup) ∧
    (∀ (ops : List (TOp κ ν)) (m lt : Nat),
      (trun ops (mkTStor m lt)).data.length ≤ m ∧
      (trun ops (mkTStor m lt)).index.length =
        (trun ops (mkTStor m lt)).data.length ∧
      (tkeysOf (trun ops (mkTStor m lt)).data).Nodup) ∧
    (∀ ops : List (Op κ ν), size (run ops (mkStor 0)) = 0) := by
  have hbase : ∀ (ops : List (Op κ ν)) (m : Nat),
      (run ops (mkStor m)).data.length ≤ m ∧
      (run ops (mkStor m)).index.length = (run ops (mkStor m)).data.length ∧
      (keysOf (run ops (mkStor m)).data).Nodup := by
    intro ops m
    exact inv_observables (inv_run (inv_mkStor m) ops)
      (max_size_run ops (mkStor m))
  refine ⟨hbase, ?_, ?_, ?_⟩
  · intro dd m ops
    exact inv_observables (inv_run (inv_restore dd m) ops)
      ((max_size_run ops (restore dd m)).trans (max_size_restore dd m))
  · intro ops m lt
    exact tinv_observables (tinv_trun (tinv_mkTStor m lt) ops)
      (tmax_size_trun ops (mkTStor m lt))
  · intro ops
    have := (hbase ops 0).1
    rw [size]
    omega

/-- C3: `compare_exchange(k, d, e)` returns true exactly when `e` matches
the current state for `k` (both absent, or both present and equal); on
success the store is updated through the same insert-and-evict path as a
normal insert (`push`) and `e` is left unchanged; on failure `e` is
overwritten with the actual current value (cleared to absent when `k` is
not present), the store is untouched, and false is returned. -/
theorem C3_compare_exchange_semantics {κ ν : Type} [DecidableEq κ]
    [DecidableEq ν] :
    ∀ (s : storage_t κ ν) (k : κ) (d : ν) (e : Option ν),
      ((compare_exchange k d e s).1 = true ↔ find k s = e) ∧
      (compare_exchange k d e s).2.1 =
        (if find k s = e then e else find k s) ∧
      (compare_exchange k d e s).2.2 =
        (if find k s = e then push k d s else s) := by
  intro s k d e
  rcases hc : find k s with _ | v <;> rcases e with _ | w
  · simp [compare_exchange, compare_with, hc]
  · simp [compare_exchange, compare_with, hc]
  · simp [compare_exchange, compare_with, hc]
  · by_cases hw : w = v
    · simp [compare_exchange, compare_with, hc, hw]
    · have hw2 : ¬(v = w) := fun h => hw h.symm
      simp [compare_exchange, compare_with, hc, hw, hw2]

/-- C9: a failed `compare_exchange` never mutates the store: when it
returns false the final store is exactly the initial one (only the caller's
`expected` argument may have changed). -/
theorem C9_failed_cas_frame {κ ν : Type} [DecidableEq κ] [DecidableEq ν] :
    ∀ (s : storage_t κ ν) (k : κ) (d : ν) (e : Option ν),
      (compare_exchange k d e s).1 = false →
      (compare_exchange k d e s).2.2 = s := by
  intro s k d e hfail
  have h1 : (compare_exchange k d e s).1 = (compare_with (find k s) e).1 := by
    rw [compare_exchange]
    split <;> simp_all
  rw [cas_state, if_neg]
  rw [h1] at hfail
  simp [hfail]

/-- Witness for C9 at a concrete failing input. -/
theorem C9_failed_cas_frame_witness :
    (compare_exchange 1 5 (some 9) (mkStor 4 : storage_t Nat Nat)).1 =
      false ∧
    (compare_exchange 1 5 (some 9) (mkStor 4 : storage_t Nat Nat)).2.2 =
      mkStor 4 :=
  ⟨by decide, C9_failed_cas_frame (mkStor 4) 1 5 (some 9) (by decide)⟩

theorem foldPush_fresh_data (m : Nat) (kvs : List (κ × ν))
    (hN : (kvs.map Prod.fst).Nodup) :
    (foldPush kvs (mkStor m : storage_t κ ν)).data =
      ((kvs.map (fun p => (⟨p.2, p.1⟩ : item_t κ ν))).reverse).take m := by
  induction kvs using List.reverseRecOn with
  | nil => simp [foldPush, mkStor]
  | append_singleton l p ih =>
    have hNl : (l.map Prod.fst).Nodup := by
      rw [List.map_append] at hN
      exact (List.nodup_append.1 hN).1
    have hfresh : p.1 ∉ l.map Prod.fst := by
      rw [List.map_append] at hN
      intro hmem
      exact (List.nodup_append.1 hN).2.2 hmem (by simp)
    have ihd := ih hNl
    have hfold : foldPush (l ++ [p]) (mkStor m : storage_t κ ν) =
        push p.1 p.2 (foldPush l (mkStor m)) := by
      rw [foldPush, List.foldl_append]
      rfl
    have hI : Inv (foldPush l (mkStor m : storage_t κ ν)) :=
      inv_foldPush (inv_mkStor m) l
    have hms : (foldPush l (mkStor m : storage_t κ ν)).max_size = m :=
      max_size_foldPush l (mkStor m)
    have hkeys : keysOf (foldPush l (mkStor m : storage_t κ ν)).data =
        ((l.map Prod.fst).reverse).take m := by
      rw [ihd]
      show ((((l.map fun p => (⟨p.2, p.1⟩ : item_t κ ν))).reverse).take
        m).map item_t.key = _
      rw [List.map_take, List.map_reverse, List.map_map]
      rfl
    have hkd : p.1 ∉ keysOf (foldPush l (mkStor m : storage_t κ ν)).data := by
      rw [hkeys]
      intro hmem
      exact hfresh (List.mem_reverse.1 (List.mem_of_mem_take hmem))
    have hki : p.1 ∉ (foldPush l (mkStor m : storage_t κ ν)).index :=
      fun hmem => hkd (hI.2.1.mem_iff.1 hmem)
    have hlen : (foldPush l (mkStor m : storage_t κ ν)).data.length ≤ m := by
      have h1 := hI.1
      omega
    have htarget : ((l ++ [p]).map
        (fun p => (⟨p.2, p.1⟩ : item_t κ ν))).reverse =
        (⟨p.2, p.1⟩ : item_t κ ν) ::
          ((l.map fun p => (⟨p.2, p.1⟩ : item_t κ ν))).reverse := by
      simp
    rcases Nat.eq_zero_or_pos m with hm0 | hmpos
    · subst hm0
      rw [hfold, htarget, List.take_zero]
      have hIp : Inv (push p.1 p.2 (foldPush l (mkStor 0 : storage_t κ ν))) :=
        inv_push hI p.1 p.2
      have hmp : (push p.1 p.2
          (foldPush l (mkStor 0 : storage_t κ ν))).max_size = 0 := by
        rw [max_size_push]
        exact hms
      refine List.eq_nil_of_length_eq_zero ?_
      have h1 := hIp.1
      omega
    · have htake : List.take m ((⟨p.2, p.1⟩ : item_t κ ν) ::
          ((l.map fun p => (⟨p.2, p.1⟩ : item_t κ ν))).reverse) =
          (⟨p.2, p.1⟩ : item_t κ ν) ::
            ((l.map fun p => (⟨p.2, p.1⟩ : item_t κ ν))).reverse.take (m - 1) := by
        obtain ⟨m2, rfl⟩ : ∃ m2, m = m2 + 1 := ⟨m - 1, by omega⟩
        simp
      rcases Nat.lt_or_ge (foldPush l
          (mkStor m : storage_t κ ν)).data.length m with hroom | hge
      · have heq := push_fresh_no_evict (s := foldPush l (mkStor m)) p.2 hki
          (by rw [hms]; exact hroom)
        have hrevlen :
            ((l.map fun p => (⟨p.2, p.1⟩ : item_t κ ν))).reverse.length < m := by
          by_contra hcon
          have : ((((l.map fun p =>
              (⟨p.2, p.1⟩ : item_t κ ν))).reverse).take m).length = m := by
            rw [List.length_take]
            omega
          rw [← ihd] at this
          omega
        rw [hfold, heq, htarget, htake]
        show (⟨p.2, p.1⟩ : item_t κ ν) ::
          (foldPush l (mkStor m : storage_t κ ν)).data = _
        rw [ihd, List.take_of_length_le (Nat.le_of_lt hrevlen),
          List.take_of_length_le (by omega)]
      · have hfull : (foldPush l (mkStor m : storage_t κ ν)).data.length =
            (foldPush l (mkStor m : storage_t κ ν)).max_size := by
          rw [hms]; omega
        obtain ⟨hdata, _⟩ := push_fresh_evict (s := foldPush l (mkStor m))
          p.2 hI hki hfull (by rw [hms]; exact hmpos)
        have hlenm : (foldPush l (mkStor m : storage_t κ ν)).data.length = m := by
          omega
        have hdl : (foldPush l (mkStor m : storage_t κ ν)).data.dropLast =
            ((l.map fun p => (⟨p.2, p.1⟩ : item_t κ ν))).reverse.take (m - 1) := by
          rw [List.dropLast_eq_take, hlenm, ihd, List.take_take]
          congr 1
          omega
        rw [hfold, hdata, hdl, htarget, htake]

/-- C2: when an insert makes the sequence exceed `max_size`, exactly one
entry — the sequence tail, the oldest — is removed from both the sequence
and the index; inserting `max_size + 1` distinct keys into a fresh store
retains exactly the later `max_size` keys in newest-first order and evicts
exactly the first-inserted key. -/
theorem C2_eviction_order {κ ν : Type} [DecidableEq κ] [DecidableEq ν] :
    (∀ (s : storage_t κ ν) (k : κ) (v : ν), Inv s → k ∉ s.index →
      s.data.length = s.max_size → 0 < s.max_size →
      (push k v s).data = ⟨v, k⟩ :: s.data.dropLast ∧
      ∀ hne : s.data ≠ [],
        (push k v s).index = k :: s.index.erase (s.data.getLast hne).key ∧
        List.Perm (push k v s).index (k :: keysOf s.data.dropLast)) ∧
    (∀ (m : Nat) (kvs : List (κ × ν)), (kvs.map Prod.fst).Nodup →
      kvs.length = m + 1 →
      (foldPush kvs (mkStor m)).data =
        ((kvs.drop 1).map (fun p => (⟨p.2, p.1⟩ : item_t κ ν))).reverse ∧
      ∀ p ∈ kvs.head?, p.1 ∉ keysOf (foldPush kvs (mkStor m)).data) := by
  constructor
  · intro s k v hI hk hfull hpos
    obtain ⟨h1, h2⟩ := push_fresh_evict v hI hk hfull hpos
    exact ⟨h1, h2⟩
  · intro m kvs hN hlen
    have hd := foldPush_fresh_data m kvs hN
    have hdrop : ((kvs.map fun p => (⟨p.2, p.1⟩ : item_t κ ν))).reverse.take m =
        ((kvs.drop 1).map (fun p => (⟨p.2, p.1⟩ : item_t κ ν))).reverse := by
      rw [List.take_reverse, ← List.map_drop, List.length_map, hlen]
      have h1 : m + 1 - m = 1 := by omega
      rw [h1]
    refine ⟨by rw [hd, hdrop], ?_⟩
    intro p hp
    obtain ⟨q, rest, hq⟩ := List.exists_cons_of_ne_nil
      (l := kvs) (by intro h0; rw [h0] at hlen; simp at hlen)
    rw [hq] at hp
    simp only [List.head?_cons, Option.mem_def, Option.some.injEq] at hp
    rw [hd, hdrop, hq]
    intro hmem
    have hkeq : keysOf ((((q :: rest).drop 1).map
        (fun p => (⟨p.2, p.1⟩ : item_t κ ν))).reverse) =
        (rest.map Prod.fst).reverse := by
      show ((((q :: rest).drop 1).map (fun p =>
        (⟨p.2, p.1⟩ : item_t κ ν))).reverse).map item_t.key = _
      rw [List.drop_one, List.tail_cons, List.map_reverse, List.map_map]
      rfl
    rw [hkeq] at hmem
    have hmem2 : p.1 ∈ rest.map Prod.fst := List.mem_reverse.1 hmem
    rw [hq] at hN
    simp only [List.map_cons, List.nodup_cons] at hN
    refine hN.1 ?_
    rw [hp]
    exact hmem2

/-- Witness for C2 at a concrete full store and a concrete overfull
insertion sequence. -/
theorem C2_eviction_order_witness :
    (push 3 30 (⟨[⟨20, 2⟩, ⟨10, 1⟩], [2, 1], 2⟩ : storage_t Nat Nat)).data =
      [⟨30, 3⟩, ⟨20, 2⟩] ∧
    List.Perm (push 3 30
      (⟨[⟨20, 2⟩, ⟨10, 1⟩], [2, 1], 2⟩ : storage_t Nat Nat)).index [3, 2] ∧
    (foldPush [(1, 10), (2, 20)] (mkStor 1) : storage_t Nat Nat).data =
      [⟨20, 2⟩] ∧
    (1 : Nat) ∉
      keysOf (foldPush [(1, 10), (2, 20)]
        (mkStor 1) : storage_t Nat Nat).data := by
  have h1 := C2_eviction_order.1
    (⟨[⟨20, 2⟩, ⟨10, 1⟩], [2, 1], 2⟩ : storage_t Nat Nat) 3 30
    (by decide) (by decide) (by decide) (by decide)
  have h2 := C2_eviction_order.2 1 [(1, 10), (2, 20)] (by decide) (by decide)
  exact ⟨h1.1, (h1.2 (by decide)).2, h2.1, h2.2 (1, 10) (by decide)⟩

theorem visits_eq_map (l : List (item_t κ ν)) :
    visits l = l.map (fun it => (it.key, it.value)) := by
  induction l with
  | nil => rfl
  | cons it rest ih => rw [visits, List.map_cons, ih]

theorem map_pair_item (l : List (item_t κ ν)) :
    l.map ((fun p => (⟨p.2, p.1⟩ : item_t κ ν)) ∘
      (fun it => (it.key, it.value))) = l := by
  induction l with
  | nil => rfl
  | cons it rest ih => simp only [List.map_cons, ih, Function.comp_apply]

theorem map_mk_dump (s : storage_t κ ν) :
    (dump s).map (fun p => (⟨p.2, p.1⟩ : item_t κ ν)) = s.data := by
  rw [dump, mapVisits, visits_eq_map, List.map_map]
  exact map_pair_item s.data

theorem dump_keys (s : storage_t κ ν) :
    (dump s).map Prod.fst = keysOf s.data := by
  rw [dump, mapVisits, visits_eq_map, List.map_map]
  rfl

theorem restore_dump_data {s : storage_t κ ν} (hI : Inv s) (m : Nat) :
    (restore (dump s) m).data = s.data.take m := by
  have hnodup : (keysOf s.data).Nodup := hI.2.2
  rw [restore, build_from_dump_eq]
  have hms : (mkStor m : storage_t κ ν).max_size = m := rfl
  rw [hms]
  by_cases hlt : (dump s).length < m
  · rw [if_pos hlt, List.drop_zero]
    have hnr : ((dump s).reverse.map Prod.fst).Nodup := by
      rw [List.map_reverse, dump_keys]
      exact List.nodup_reverse.2 hnodup
    rw [foldPush_fresh_data m _ hnr, List.map_reverse, List.reverse_reverse,
      map_mk_dump]
  · rw [if_neg hlt, List.drop_reverse]
    have hj : (dump s).length - ((dump s).length - m) = m := by omega
    rw [hj]
    have hnr : (((dump s).take m).reverse.map Prod.fst).Nodup := by
      rw [List.map_reverse, List.map_take, dump_keys]
      exact List.nodup_reverse.2 (hnodup.sublist (List.take_sublist m _))
    rw [foldPush_fresh_data m _ hnr, List.map_reverse, List.reverse_reverse,
      List.map_take, map_mk_dump, List.take_take]
    simp

/-- C4: restoring a store from (dump, max_size) reproduces the newest
`max_size` entries of the dump in the same newest-first order; when the
original store's size does not exceed `max_size` the rebuilt store is
observably identical (same sequence, hence same `map` traversal order and
values). -/
theorem C4_dump_restore_round_trip {κ ν : Type} [DecidableEq κ]
    [DecidableEq ν] :
    ∀ (s : storage_t κ ν) (m : Nat), Inv s →
      (restore (dump s) m).data = s.data.take m ∧
      (s.data.length ≤ m →
        (restore (dump s) m).data = s.data ∧
        mapVisits (restore (dump s) m) = mapVisits s ∧
        dump (restore (dump s) m) = dump s) := by
  intro s m hI
  have h := restore_dump_data hI m
  refine ⟨h, fun hle => ?_⟩
  have h2 : (restore (dump s) m).data = s.data := by
    rw [h]
    exact List.take_of_length_le hle
  refine ⟨h2, ?_, ?_⟩
  · show visits (restore (dump s) m).data = visits s.data
    rw [h2]
  · show visits (restore (dump s) m).data = visits s.data
    rw [h2]

/-- Witness for C4 at a concrete store, both below and above capacity. -/
theorem C4_dump_restore_round_trip_witness :
    (restore (dump (⟨[⟨20, 2⟩, ⟨10, 1⟩], [2, 1], 3⟩ : storage_t Nat Nat))
        1).data =
      (⟨[⟨20, 2⟩, ⟨10, 1⟩], [2, 1], 3⟩ : storage_t Nat Nat).data.take 1 ∧
    (restore (dump (⟨[⟨20, 2⟩, ⟨10, 1⟩], [2, 1], 3⟩ : storage_t Nat Nat))
        3).data =
      (⟨[⟨20, 2⟩, ⟨10, 1⟩], [2, 1], 3⟩ : storage_t Nat Nat).data :=
  ⟨(C4_dump_restore_round_trip
      (⟨[⟨20, 2⟩, ⟨10, 1⟩], [2, 1], 3⟩ : storage_t Nat Nat) 1 (by decide)).1,
    ((C4_dump_restore_round_trip
      (⟨[⟨20, 2⟩, ⟨10, 1⟩], [2, 1], 3⟩ : storage_t Nat Nat) 3
        (by decide)).2 (by decide)).1⟩

theorem tfix_size_head_of_pos {s2 : tstorage_t κ ν} (hpos : 0 < s2.max_size) :
    (tfix_size s2).data.head? = s2.data.head? := by
  rw [tfix_size]
  split
  · next h =>
    show s2.data.dropLast.head? = s2.data.head?
    cases hd : s2.data with
    | nil =>
      rw [hd] at h
      simp at h
    | cons a t =>
      cases t with
      | nil =>
        rw [hd] at h
        simp at h
        omega
      | cons b t2 => simp [hd]
  · rfl

theorem tfind_tfix_front {A : tstorage_t κ ν} {k : κ} {a : titem_t κ ν}
    {X : List (titem_t κ ν)} (hd : A.data = a :: X) (hkey : a.key = k)
    (hki : k ∈ A.index) (hpos : 0 < A.max_size) (hX : k ∉ tkeysOf X)
    (now : Nat) :
    tfind now k (tfix_size A) =
      if a.end_time ≤ now then none else some a.value := by
  have hhead : ∀ Y : List (titem_t κ ν),
      (a :: Y).find? (fun j => j.key == k) = some a :=
    fun Y => List.find?_cons_of_pos Y (by simp [hkey])
  rw [tfix_size]
  split
  · next hlt =>
    have hXne : X ≠ [] := by
      intro h0
      rw [hd, h0] at hlt
      simp at hlt
      omega
    have hlast : A.data.getLast? = some (X.getLast hXne) := by
      rw [hd, List.getLast?_cons, List.getLast?_eq_getLast _ hXne]
      rfl
    have hq : (X.getLast hXne).key ∈ tkeysOf X :=
      List.mem_map_of_mem titem_t.key (List.getLast_mem hXne)
    have hkq : k ≠ (X.getLast hXne).key := fun h0 => hX (h0 ▸ hq)
    rw [hlast]
    show tfind now k
      { A with data := A.data.dropLast,
               index := A.index.erase (X.getLast hXne).key } = _
    rw [tfind]
    have hmem : k ∈ A.index.erase (X.getLast hXne).key :=
      (List.mem_erase_of_ne hkq).2 hki
    rw [if_pos hmem]
    show (match (A.data.dropLast).find? (fun j => j.key == k) with
      | none => none
      | some j => if j.end_time ≤ now then none else some j.value) = _
    rw [hd, List.dropLast_cons_of_ne_nil hXne, hhead]
  · rw [tfind, if_pos hki]
    show (match A.data.find? (fun j => j.key == k) with
      | none => none
      | some j => if j.end_time ≤ now then none else some j.value) = _
    rw [hd, hhead]

/-- C6: in the time-aware variant, an entry inserted for key `k` at instant
`t0` with store lifetime `L` is returned by `find` at every instant
`now < t0 + L` and missed at every `now >= t0 + L`; and `last()` never
returns a value whose expiry has been reached, even before a sweep: any
value it returns belongs to an entry of the sequence whose `end_time` is
still in the future. -/
theorem C6_expiry {κ ν : Type} [DecidableEq κ] [DecidableEq ν] :
    (∀ (s : tstorage_t κ ν) (k : κ) (v : ν) (t0 now : Nat), TInv s →
      0 < s.max_size →
      tfind now k (tpush t0 k v s) =
        if now < t0 + s.lifetime then some v else none) ∧
    (∀ (s : tstorage_t κ ν) (now : Nat) (w : ν), TInv s →
      tlast now s = some w →
      ∃ it, it ∈ s.data ∧ it.value = w ∧ now < it.end_time) := by
  constructor
  · intro s k v t0 now hI hpos
    have hI1 : TInv (clear_outdated t0 s) := tinv_clear_outdated hI t0
    by_cases hk : k ∈ (clear_outdated t0 s).index
    · have hX : k ∉ tkeysOf
          ((clear_outdated t0 s).data.eraseP (fun it => it.key == k)) := by
        have hmap : tkeysOf ((clear_outdated t0 s).data.eraseP
            (fun it => it.key == k)) =
            (tkeysOf (clear_outdated t0 s).data).erase k :=
          map_eraseP_key titem_t.key k (clear_outdated t0 s).data
        rw [hmap]
        exact hI1.2.2.not_mem_erase
      have hfind := tfind_tfix_front
        (A := tapply_new t0 k v (clear_outdated t0 s))
        (a := ⟨v, k, t0 + (clear_outdated t0 s).lifetime⟩)
        (X := (clear_outdated t0 s).data.eraseP (fun it => it.key == k))
        (by rw [tapply_new_mem t0 v hk]) rfl
        (by rw [tapply_new_mem t0 v hk]; exact hk)
        (by rw [tapply_new_mem t0 v hk]; exact hpos) hX now
      rw [tpush, hfind]
      show (if t0 + s.lifetime ≤ now then none else some v) = _
      by_cases hle : t0 + s.lifetime ≤ now
      · rw [if_pos hle, if_neg (by omega)]
      · rw [if_neg hle, if_pos (by omega)]
    · have hX : k ∉ tkeysOf (clear_outdated t0 s).data :=
        fun hmem => hk (hI1.2.1.mem_iff.2 hmem)
      have hfind := tfind_tfix_front
        (A := tapply_new t0 k v (clear_outdated t0 s))
        (a := ⟨v, k, t0 + (clear_outdated t0 s).lifetime⟩)
        (X := (clear_outdated t0 s).data)
        (by rw [tapply_new_not_mem t0 v hk]) rfl
        (by rw [tapply_new_not_mem t0 v hk]
            exact List.mem_cons_self k _)
        (by rw [tapply_new_not_mem t0 v hk]; exact hpos) hX now
      rw [tpush, hfind]
      show (if t0 + s.lifetime ≤ now then none else some v) = _
      by_cases hle : t0 + s.lifetime ≤ now
      · rw [if_pos hle, if_neg (by omega)]
      · rw [if_neg hle, if_pos (by omega)]
  · intro s now w hI hlast
    rw [tlast] at hlast
    by_cases hemp : (clear_outdated now s).data.isEmpty
    · rw [if_pos hemp] at hlast
      exact absurd hlast (by simp)
    · rw [if_neg hemp] at hlast
      have hne : (clear_outdated now s).data ≠ [] := by
        intro h0
        rw [h0] at hemp
        simp at hemp
      have hlq : (clear_outdated now s).data.getLast? =
          some ((clear_outdated now s).data.getLast hne) :=
        List.getLast?_eq_getLast _ hne
      rw [hlq] at hlast
      have hfresh : now <
          ((clear_outdated now s).data.getLast hne).end_time :=
        clear_outdated_back_fresh hI hlq
      have hlast2 : (if ((clear_outdated now s).data.getLast hne).end_time <
          now then (none : Option ν)
          else some ((clear_outdated now s).data.getLast hne).value) =
          some w := hlast
      rw [if_neg (by omega)] at hlast2
      refine ⟨(clear_outdated now s).data.getLast hne, ?_, ?_, hfresh⟩
      · exact clear_outdated_mem hI (List.getLast_mem hne)
      · simpa using hlast2

/-- Witness for C6: a concrete inserted entry is found strictly before its
expiry and missed at it, and a concrete `last()` hit names a live entry. -/
theorem C6_expiry_witness :
    tfind 2 1 (tpush 0 1 5 (mkTStor 3 4 : tstorage_t Nat Nat)) = some 5 ∧
    tfind 4 1 (tpush 0 1 5 (mkTStor 3 4 : tstorage_t Nat Nat)) = none ∧
    (∃ it, it ∈ (⟨[⟨5, 1, 4⟩], [1], 3, 4⟩ : tstorage_t Nat Nat).data ∧
      it.value = 5 ∧ 2 < it.end_time) := by
  have h1 := C6_expiry.1 (mkTStor 3 4 : tstorage_t Nat Nat) 1 5 0 2
    (by decide) (by decide)
  have h2 := C6_expiry.1 (mkTStor 3 4 : tstorage_t Nat Nat) 1 5 0 4
    (by decide) (by decide)
  have h3 := C6_expiry.2 (⟨[⟨5, 1, 4⟩], [1], 3, 4⟩ : tstorage_t Nat Nat) 2 5
    (by decide) (by decide)
  exact ⟨h1, h2, h3⟩

/-- C7: `find` is a pure lookup in both variants: it leaves the store state
exactly unchanged (no recency move, no index change, and in the time-aware
variant no expiry sweep), and returns the value of the unique sequence
entry bearing the key — in the time-aware variant only when that entry's
`end_time` has not been reached. -/
theorem C7_find_is_pure_lookup {κ ν : Type} [DecidableEq κ]
    [DecidableEq ν] :
    (∀ (s : storage_t κ ν) (k : κ),
      step (Op.findKey k) s = s ∧
      (Inv s → find k s =
        (s.data.find? (fun it => it.key == k)).map item_t.value)) ∧
    (∀ (s : tstorage_t κ ν) (now : Nat) (k : κ),
      tstep (TOp.findKey now k) s = s ∧
      (TInv s → tfind now k s =
        match s.data.find? (fun it => it.key == k) with
        | none => none
        | some it => if it.end_time ≤ now then none else some it.value)) := by
  constructor
  · intro s k
    refine ⟨rfl, fun hI => ?_⟩
    rw [find]
    by_cases hk : k ∈ s.index
    · rw [if_pos hk]
    · rw [if_neg hk]
      have hnone : s.data.find? (fun it => it.key == k) = none := by
        rw [List.find?_eq_none]
        intro it hit
        simp only [beq_iff_eq]
        intro h0
        apply hk
        apply hI.2.1.mem_iff.2
        rw [← h0]
        exact List.mem_map_of_mem item_t.key hit
      rw [hnone]
      rfl
  · intro s now k
    refine ⟨rfl, fun hI => ?_⟩
    rw [tfind]
    by_cases hk : k ∈ s.index
    · rw [if_pos hk]
    · rw [if_neg hk]
      have hnone : s.data.find? (fun it => it.key == k) = none := by
        rw [List.find?_eq_none]
        intro it hit
        simp only [beq_iff_eq]
        intro h0
        apply hk
        apply hI.2.1.mem_iff.2
        rw [← h0]
        exact List.mem_map_of_mem titem_t.key hit
      rw [hnone]

/-- Witness for C7: a concrete hit in the CAS/dump variant and a concrete
expired-entry miss in the time-aware variant, both leaving the state
untouched. -/
theorem C7_find_is_pure_lookup_witness :
    (step (Op.findKey 1) (⟨[⟨10, 1⟩], [1], 2⟩ : storage_t Nat Nat) =
      (⟨[⟨10, 1⟩], [1], 2⟩ : storage_t Nat Nat)) ∧
    find 1 (⟨[⟨10, 1⟩], [1], 2⟩ : storage_t Nat Nat) = some 10 ∧
    (tstep (TOp.findKey 9 1) (⟨[⟨7, 1, 5⟩], [1], 3, 4⟩ : tstorage_t Nat Nat) =
      (⟨[⟨7, 1, 5⟩], [1], 3, 4⟩ : tstorage_t Nat Nat)) ∧
    tfind 9 1 (⟨[⟨7, 1, 5⟩], [1], 3, 4⟩ : tstorage_t Nat Nat) = none := by
  have h1 := C7_find_is_pure_lookup.1
    (⟨[⟨10, 1⟩], [1], 2⟩ : storage_t Nat Nat) 1
  have h2 := C7_find_is_pure_lookup.2
    (⟨[⟨7, 1, 5⟩], [1], 3, 4⟩ : tstorage_t Nat Nat) 9 1
  exact ⟨h1.1, (h1.2 (by decide)).trans (by decide),
    h2.1, (h2.2 (by decide)).trans (by decide)⟩

/-- Counterexample for C8 as stated: the time-aware `map` loop breaks only
on `end_time < now`, so an entry exactly at its expiry instant
(`end_time = now`, which `find` already treats as expired) is still
visited. -/
theorem C8_map_visit_cex :
    ¬ (∀ it ∈ tmapVisits 5 (⟨[⟨7, 1, 5⟩], [1], 3, 4⟩ : tstorage_t Nat Nat),
        5 < it.end_time) := by decide

/-- C8 (amended): `map` visits entries in recency order, newest first: the
non-time-aware variant visits every entry; the time-aware variant visits
exactly the longest front prefix of entries with `now <= end_time` — it
visits no entry strictly past its expiry, but an entry whose expiry instant
equals `now` is still visited. -/
theorem C8_map_visit_order {κ ν : Type} [DecidableEq κ] [DecidableEq ν] :
    (∀ s : storage_t κ ν,
      mapVisits s = s.data.map (fun it => (it.key, it.value))) ∧
    (∀ (now : Nat) (s : tstorage_t κ ν),
      tmapVisits now s =
        s.data.takeWhile (fun it => decide (now ≤ it.end_time)) ∧
      (∀ it ∈ tmapVisits now s, now ≤ it.end_time) ∧
      List.IsPrefix (tmapVisits now s) s.data) := by
  have htw : ∀ (now : Nat) (l : List (titem_t κ ν)),
      tvisits now l = l.takeWhile (fun it => decide (now ≤ it.end_time)) := by
    intro now l
    induction l with
    | nil => rfl
    | cons it rest ih =>
      by_cases h : it.end_time < now
      · rw [tvisits, if_pos h, List.takeWhile_cons_of_neg (by simpa using h)]
      · rw [tvisits, if_neg h, ih,
          List.takeWhile_cons_of_pos (by simp; omega)]
  refine ⟨fun s => visits_eq_map s.data, fun now s => ?_⟩
  have h1 : tmapVisits now s =
      s.data.takeWhile (fun it => decide (now ≤ it.end_time)) :=
    htw now s.data
  refine ⟨h1, ?_, ?_⟩
  · intro it hit
    rw [h1] at hit
    simpa using List.mem_takeWhile_imp hit
  · rw [h1]
    exact List.takeWhile_prefix _

/-- Witness for C8: the visited prefix of a concrete sequence with one live
entry and one strictly expired entry behind it. -/
theorem C8_map_visit_order_witness :
    mapVisits (⟨[⟨10, 1⟩], [1], 2⟩ : storage_t Nat Nat) = [(1, 10)] ∧
    tmapVisits 5 (⟨[⟨8, 2, 9⟩, ⟨7, 1, 3⟩], [2, 1], 3, 4⟩ :
      tstorage_t Nat Nat) =
      ([⟨8, 2, 9⟩, ⟨7, 1, 3⟩] :
        List (titem_t Nat Nat)).takeWhile (fun it => decide (5 ≤ it.end_time)) ∧
    (5 : Nat) ≤ (⟨8, 2, 9⟩ : titem_t Nat Nat).end_time := by
  have h1 := C8_map_visit_order.1 (⟨[⟨10, 1⟩], [1], 2⟩ : storage_t Nat Nat)
  have h2 := C8_map_visit_order.2 5
    (⟨[⟨8, 2, 9⟩, ⟨7, 1, 3⟩], [2, 1], 3, 4⟩ : tstorage_t Nat Nat)
  exact ⟨h1, h2.1, h2.2.1 ⟨8, 2, 9⟩ (by decide)⟩

/-- C10: the time-aware `first()` performs no sweep and no expiry check —
it returns the front value of the sequence whenever the sequence is
non-empty, even when that entry is past its expiry; hence there is a state
(an expired entry not yet swept) where `first()` returns a value for a key
on which `find` reports a miss. -/
theorem C10_first_ignores_expiry {κ ν : Type} [DecidableEq κ]
    [DecidableEq ν] :
    (∀ s : tstorage_t κ ν,
      tfirst s = s.data.head?.map titem_t.value ∧
      tstep TOp.firstVal s = s) ∧
    (tfirst (⟨[⟨7, 1, 5⟩], [1], 3, 4⟩ : tstorage_t Nat Nat) = some 7 ∧
      tfind 9 1 (⟨[⟨7, 1, 5⟩], [1], 3, 4⟩ : tstorage_t Nat Nat) = none) := by
  refine ⟨fun s => ⟨?_, rfl⟩, by decide, by decide⟩
  rw [tfirst]
  cases s.data with
  | nil => rfl
  | cons a t => rfl

end kvstor
